import Mathlib

/-!
Verification of lj3954/linutil core components against their specification.

Shallow embedding of three source files:
* `tui/src/confirmation.rs` — the `ConfirmPrompt` modal dialog;
* `src/systeminfo/mod.rs` — the os-release probe and package-manager resolver;
* `build.rs` — the script collector and transclusion engine.

Strings crossing the build pipeline are modelled as `List Char` so that
line-splitting and quote-trimming can be stated character by character.
Rust `usize` arithmetic is modelled as `Nat` with explicit wrapping
(`% 2^64`) where the source can underflow.  Fallible operations
(`unwrap` on I/O) are modelled with `Option`: `none` is a panic/abort.
-/

namespace Linutil

/-! ### Confirmation dialog — `tui/src/confirmation.rs` -/

/-- `FloatEvent` variants used by `ConfirmPrompt::handle_key_event`
(declared in the out-of-src `float.rs`; variants are determined by
their uses in `confirmation.rs`). -/
inductive FloatEvent where
  | none
  | confirmSelection
  | abortConfirmation
deriving DecidableEq

/-- The key codes `handle_key_event` distinguishes: a character key,
the escape key, and (collapsed into one constructor) every other key,
which the Rust `match` handles with a single wildcard arm. -/
inductive KeyCode where
  | char (c : Char)
  | esc
  | other
deriving DecidableEq

/-- `ConfirmPrompt { names: Box<[String]>, scroll: usize }`. -/
structure ConfirmPrompt where
  names : List String
  scroll : Nat
deriving DecidableEq

/-- Rust `usize` modulus on the 64-bit targets linutil ships for. -/
def USIZE : Nat := 2 ^ 64

/-- `names.iter().zip(1..).map(|(name, n)| format!("{n}. {name}"))`. -/
def numberFrom (n : Nat) : List String → List String
  | [] => []
  | name :: rest => (toString n ++ ". " ++ name) :: numberFrom (n + 1) rest

/-- `ConfirmPrompt::new`. -/
def ConfirmPrompt.new (names : List String) : ConfirmPrompt :=
  { names := numberFrom 1 names, scroll := 0 }

/-- `ConfirmPrompt::scroll_down`:
`if self.scroll < self.names.len() - 1 { self.scroll += 1 }`.
The subtraction `len - 1` is usize arithmetic: for `len = 0` it
underflows, which wraps in release builds (and panics in debug
builds); the wrapping behaviour is modelled here as
`(len + (2^64 - 1)) % 2^64`. -/
def ConfirmPrompt.scroll_down (p : ConfirmPrompt) : ConfirmPrompt :=
  if p.scroll < (p.names.length + (USIZE - 1)) % USIZE then
    { p with scroll := p.scroll + 1 }
  else p

/-- `ConfirmPrompt::scroll_up`:
`if self.scroll > 0 { self.scroll -= 1 }`. -/
def ConfirmPrompt.scroll_up (p : ConfirmPrompt) : ConfirmPrompt :=
  if p.scroll > 0 then { p with scroll := p.scroll - 1 } else p

/-- `ConfirmPrompt::handle_key_event`.  The Rust `match` on distinct
character literals is rendered as an ordered test chain; the final
branch is the wildcard arm.  Returns the updated prompt together with
the emitted `FloatEvent` (the Rust method mutates `self`). -/
def ConfirmPrompt.handle_key_event (p : ConfirmPrompt) (key : KeyCode) :
    ConfirmPrompt × FloatEvent :=
  match key with
  | .char c =>
      if c = 'y' ∨ c = 'Y' then (p, FloatEvent.confirmSelection)
      else if c = 'n' ∨ c = 'N' then (p, FloatEvent.abortConfirmation)
      else if c = 'j' then (p.scroll_down, FloatEvent.none)
      else if c = 'k' then (p.scroll_up, FloatEvent.none)
      else (p, FloatEvent.none)
  | .esc => (p, FloatEvent.abortConfirmation)
  | .other => (p, FloatEvent.none)

/-- The visible body of `ConfirmPrompt::draw`:
`self.names.iter().skip(self.scroll)`. -/
def ConfirmPrompt.drawBody (p : ConfirmPrompt) : List String :=
  p.names.drop p.scroll

/-- `ConfirmPrompt::get_shortcut_list`.  `Shortcut::new(desc, keys)`
(declared in the out-of-src `hint.rs`) is modelled as the pair
`(desc, keys)`. -/
def ConfirmPrompt.get_shortcut_list (_p : ConfirmPrompt) :
    String × List (String × List String) :=
  ("Confirmation prompt",
    [("Continue", ["Y", "y"]),
     ("Abort", ["N", "n"]),
     ("Scroll up", ["j"]),
     ("Scroll down", ["k"]),
     ("Close linutil", ["CTRL-c", "q"])])

/-- One scroll input, for stating invariants over arbitrary sequences. -/
inductive ScrollOp where
  | up
  | down

/-- Apply one scroll input to a prompt. -/
def applyScroll (p : ConfirmPrompt) : ScrollOp → ConfirmPrompt
  | .up => p.scroll_up
  | .down => p.scroll_down

/-- Apply an arbitrary sequence of scroll inputs. -/
def runScroll (p : ConfirmPrompt) (ops : List ScrollOp) : ConfirmPrompt :=
  ops.foldl applyScroll p

/-! ### System probe — `src/systeminfo/mod.rs` -/

/-- Rust `str::split_once(sep)`: split at the first occurrence of
`sep`, `none` when `sep` does not occur. -/
def splitOnce (sep : Char) : List Char → Option (List Char × List Char)
  | [] => Option.none
  | c :: rest =>
      if c = sep then Option.some ([], rest)
      else (splitOnce sep rest).map (fun kv => (c :: kv.1, kv.2))

/-- Rust `str::trim_matches(t)`: repeatedly remove `t` from both ends
of the string. -/
def trimMatches (t : Char) (s : List Char) : List Char :=
  ((s.dropWhile (fun c => c = t)).reverse.dropWhile (fun c => c = t)).reverse

/-- The per-line closure of `get_os_info`:
`line.split_once('=').map(|(key, value)| (key.to_lowercase(), value.trim_matches('"')))`.
`char::to_lowercase` is modelled by `Char.toLower`, which agrees with
Rust on the ASCII keys that appear in os-release files. -/
def osReleaseParseLine (line : List Char) : Option (List Char × List Char) :=
  (splitOnce '=' line).map
    (fun kv => (kv.1.map Char.toLower, trimMatches '"' kv.2))

/-- Modelled from the spec: the spec sentence "strips at most one layer
of surrounding double quotes from the value".  One layer is removed
only when the value both begins and ends with `"`.  Used solely to
compare the spec's wording with the behaviour of `trimMatches`. -/
def stripOneQuoteLayer (s : List Char) : List Char :=
  match s with
  | [] => []
  | c :: rest =>
      if c = '"' ∧ rest ≠ [] ∧ rest.getLast? = Option.some '"' then
        rest.dropLast
      else c :: rest

/-! ### Package-manager resolver — `src/systeminfo/mod.rs` -/

/-- The static distro → package-manager table in `get_package_manager`. -/
def package_managers : List (String × String) :=
  [("fedora", "dnf"), ("debian", "apt-get"), ("arch", "pacman"),
   ("opensuse", "zypper")]

/-- `get_package_manager`:
`package_managers.into_iter().find(|(key, _)| key == &distro).map(|(_, value)| value)`. -/
def get_package_manager (distro : String) : Option String :=
  (package_managers.find? (fun kv => kv.1 = distro)).map (fun kv => kv.2)

/-! ### Script collector and transclusion engine — `build.rs` -/

/-- Split on every `'\n'`: a string with `n` newlines yields `n + 1`
pieces.  Building block of `rustLines`. -/
def splitNl : List Char → List (List Char)
  | [] => [[]]
  | c :: rest =>
      if c = '\n' then [] :: splitNl rest
      else
        match splitNl rest with
        | [] => [[c]]
        | l :: ls => (c :: l) :: ls

/-- Remove one trailing `'\r'` (for `"\r\n"` line endings). -/
def stripCr (l : List Char) : List Char :=
  if l.getLast? = Option.some '\r' then l.dropLast else l

/-- Rust `str::lines()`: pieces between `'\n'`s; each piece that was
terminated by a `'\n'` loses one trailing `'\r'`; a final empty piece
(from a trailing newline, or an empty string) yields no line. -/
def rustLines (s : List Char) : List (List Char) :=
  let ps := splitNl s
  ps.dropLast.map stripCr ++
    (match ps.getLast? with
     | Option.some [] => []
     | Option.some l => [l]
     | Option.none => [])

/-- Rust `Vec::join("\n")`: a single newline separator between lines. -/
def joinNl : List (List Char) → List Char
  | [] => []
  | [l] => l
  | l :: rest => l ++ '\n' :: joinNl rest

/-- `line.starts_with(". ") || line.starts_with("source ")`. -/
def isDirective (l : List Char) : Prop :=
  l.take 2 = ". ".toList ∨ l.take 7 = "source ".toList

instance instDecidableIsDirective (l : List Char) : Decidable (isDirective l) := by
  unfold isDirective
  exact inferInstance

/-- Rust `Path::join`: an absolute right operand replaces the left;
joining onto an empty path yields the right operand. -/
def pathJoin (dir p : List Char) : List Char :=
  if p.head? = Option.some '/' then p
  else if dir = [] then p
  else dir ++ '/' :: p

/-- Rust `Path::parent` of a relative file path: everything before the
last `'/'` (empty when there is no `'/'`). -/
def parentDir (p : List Char) : List Char :=
  ((p.reverse.dropWhile (fun c => c ≠ '/')).drop 1).reverse

/-- The per-line closure of `replace_source`: a directive line is
replaced by `fs::read_to_string(filedir.join(sourced_file))` (where
`sourced_file` is everything after the line's first space); every
other line passes through.  `Option.none` models the `unwrap` panic
on an unreadable include target. -/
def processLine (readF : List Char → Option (List Char)) (dir l : List Char) :
    Option (List Char) :=
  if isDirective l then
    match splitOnce ' ' l with
    | Option.some kv => readF (pathJoin dir kv.2)
    | Option.none => Option.none
  else Option.some l

/-- `contents.lines().map(per-line closure)`, collected; any panic
aborts the whole build. -/
def flattenLines (readF : List Char → Option (List Char)) (dir : List Char) :
    List (List Char) → Option (List (List Char))
  | [] => Option.some []
  | l :: rest =>
      (processLine readF dir l).bind fun h =>
        (flattenLines readF dir rest).map fun t => h :: t

/-- The whole body transformation of `replace_source` for one file:
split into lines, map the per-line closure, rejoin with `"\n"`. -/
def flattenScript (readF : List Char → Option (List Char))
    (dir contents : List Char) : Option (List Char) :=
  (flattenLines readF dir (rustLines contents)).map joinNl

/-- A file on disk, as the collector sees it: its path, its extension
(`Option` mirrors `Path::extension`), and its contents —
`Option.none` meaning the file cannot be opened/read. -/
structure SrcFile where
  path : List Char
  ext : Option (List Char)
  content : Option (List Char)
deriving DecidableEq

/-- A directory tree entry.  `readable := false` on a directory makes
`read_dir()` fail (so `.unwrap()` panics). -/
inductive FsEntry where
  | file (f : SrcFile)
  | dir (readable : Bool) (entries : List FsEntry)

/-- `has_shell_ext`: `file.extension().map_or(true, |ext| ext == "sh")`. -/
def has_shell_ext (f : SrcFile) : Bool :=
  match f.ext with
  | Option.none => true
  | Option.some e => decide (e = "sh".toList)

/-- `starts_with_shebang`:
`fs::File::open(file).map_or(false, |f| read_exact(two bytes) ok && bytes == b"#!")`.
An unopenable file, or one shorter than two bytes, yields `false`. -/
def starts_with_shebang (f : SrcFile) : Bool :=
  match f.content with
  | Option.none => false
  | Option.some c => decide (c.take 2 = "#!".toList)

/-- The candidate test of `get_script_list`:
`has_shell_ext(&path) && starts_with_shebang(&path)`. -/
def isScript (f : SrcFile) : Bool :=
  has_shell_ext f && starts_with_shebang f

/-- `get_script_list` over the entries of one directory: files are
kept iff `isScript`; subdirectories are recursed into in place; an
unreadable directory is a `read_dir().unwrap()` panic (`Option.none`). -/
def collectEntries : List FsEntry → Option (List SrcFile)
  | [] => Option.some []
  | .file f :: rest =>
      (collectEntries rest).map fun r => (if isScript f then [f] else []) ++ r
  | .dir rd sub :: rest =>
      if rd then
        (collectEntries sub).bind fun s =>
          (collectEntries rest).map fun r => s ++ r
      else Option.none

/-- All file leaves of a tree, in discovery order. -/
def filesOf : List FsEntry → List SrcFile
  | [] => []
  | .file f :: rest => f :: filesOf rest
  | .dir _ sub :: rest => filesOf sub ++ filesOf rest

/-- Is some directory of the tree unreadable? -/
def hasUnreadableDir : List FsEntry → Bool
  | [] => false
  | .file _ :: rest => hasUnreadableDir rest
  | .dir rd sub :: rest => !rd || hasUnreadableDir sub || hasUnreadableDir rest

/-- `replace_source`: for each collected file, read it
(`read_to_string(..).unwrap()`), flatten it relative to its parent
directory, and emit `(path, flattened)`.  `readInc` stands for
`fs::read_to_string` on include targets. -/
def buildOutputs (readInc : List Char → Option (List Char)) :
    List SrcFile → Option (List (List Char × List Char))
  | [] => Option.some []
  | f :: rest =>
      f.content.bind fun c =>
        (flattenScript readInc (parentDir f.path) c).bind fun flat =>
          (buildOutputs readInc rest).map fun r => (f.path, flat) :: r

/-- `main` of `build.rs`: collect, then transclude every candidate. -/
def buildPipeline (readInc : List Char → Option (List Char))
    (tree : List FsEntry) : Option (List (List Char × List Char)) :=
  (collectEntries tree).bind (buildOutputs readInc)

/-! ## Helper lemmas -/

/-- For `1 ≤ L < 2^64`, the wrapped usize computation `L - 1` used by
`scroll_down` equals the plain `L - 1`. -/
theorem usize_pred_eq (L : Nat) (h1 : 1 ≤ L) (h2 : L < USIZE) :
    (L + (USIZE - 1)) % USIZE = L - 1 := by
  have hU : 1 ≤ USIZE := by norm_num [USIZE]
  have h : L + (USIZE - 1) = (L - 1) + 1 * USIZE := by omega
  rw [h, Nat.add_mul_mod_self_right, Nat.mod_eq_of_lt]
  omega

theorem numberFrom_length (n : Nat) (names : List String) :
    (numberFrom n names).length = names.length := by
  induction names generalizing n with
  | nil => rfl
  | cons a rest ih => simp [numberFrom, ih]

theorem applyScroll_names (p : ConfirmPrompt) (op : ScrollOp) :
    (applyScroll p op).names = p.names := by
  cases op with
  | up =>
      simp only [applyScroll, ConfirmPrompt.scroll_up]
      split <;> rfl
  | down =>
      simp only [applyScroll, ConfirmPrompt.scroll_down]
      split <;> rfl

theorem applyScroll_scroll_lt (p : ConfirmPrompt) (op : ScrollOp)
    (hU : p.names.length < USIZE) (h : p.scroll < p.names.length) :
    (applyScroll p op).scroll < p.names.length := by
  cases op with
  | up =>
      simp only [applyScroll, ConfirmPrompt.scroll_up]
      split
      · show p.scroll - 1 < p.names.length
        omega
      · exact h
  | down =>
      have h1 : 1 ≤ p.names.length := by omega
      simp only [applyScroll, ConfirmPrompt.scroll_down]
      rw [usize_pred_eq _ h1 hU]
      split
      next hlt =>
        show p.scroll + 1 < p.names.length
        omega
      next => exact h

theorem runScroll_inv (ops : List ScrollOp) (p : ConfirmPrompt)
    (hU : p.names.length < USIZE) (h : p.scroll < p.names.length) :
    (runScroll p ops).names = p.names ∧
      (runScroll p ops).scroll < p.names.length := by
  induction ops generalizing p with
  | nil => exact ⟨rfl, h⟩
  | cons op ops ih =>
      have hn := applyScroll_names p op
      have hs := applyScroll_scroll_lt p op hU h
      have step := ih (applyScroll p op) (by rw [hn]; exact hU) (by rw [hn]; exact hs)
      rw [hn] at step
      exact step

theorem splitOnce_append (sep : Char) (k v : List Char) (hk : sep ∉ k) :
    splitOnce sep (k ++ sep :: v) = Option.some (k, v) := by
  induction k with
  | nil => simp [splitOnce]
  | cons c rest ih =>
      have hc : ¬(c = sep) := fun h => hk (by simp [h])
      simp only [List.cons_append, splitOnce, if_neg hc, List.append_eq]
      rw [ih (fun h => hk (List.mem_cons_of_mem _ h))]
      rfl

theorem head?_dropWhile_ne (t : Char) (l : List Char) :
    (l.dropWhile (fun c => c = t)).head? ≠ Option.some t := by
  induction l with
  | nil => simp
  | cons c rest ih =>
      rw [List.dropWhile_cons]
      by_cases h : c = t
      · simpa [h] using ih
      · simp [h]

theorem getLast?_dropWhile (p : Char → Bool) (l : List Char)
    (h : l.dropWhile p ≠ []) :
    (l.dropWhile p).getLast? = l.getLast? := by
  induction l with
  | nil => simp at h
  | cons c rest ih =>
      rw [List.dropWhile_cons] at h ⊢
      by_cases hc : p c = true
      · rw [if_pos hc] at h ⊢
        rw [ih h]
        have hrest : rest ≠ [] := by
          intro he
          subst he
          simp [List.dropWhile] at h
        obtain ⟨b, bs, rfl⟩ : ∃ b bs, rest = b :: bs := by
          cases rest with
          | nil => exact absurd rfl hrest
          | cons b bs => exact ⟨b, bs, rfl⟩
        rw [List.getLast?_cons_cons]
      · rw [if_neg hc]

theorem trimMatches_getLast?_ne (t : Char) (s : List Char) :
    (trimMatches t s).getLast? ≠ Option.some t := by
  unfold trimMatches
  rw [List.getLast?_eq_head?_reverse, List.reverse_reverse]
  exact head?_dropWhile_ne t _

theorem trimMatches_head?_ne (t : Char) (s : List Char) :
    (trimMatches t s).head? ≠ Option.some t := by
  unfold trimMatches
  by_cases hnil :
      (s.dropWhile (fun c => c = t)).reverse.dropWhile (fun c => c = t) = []
  · rw [hnil]
    simp
  · rw [← List.getLast?_eq_head?_reverse, getLast?_dropWhile _ _ hnil,
      List.getLast?_eq_head?_reverse, List.reverse_reverse]
    exact head?_dropWhile_ne t s

theorem processLine_nondirective (readF : List Char → Option (List Char))
    (dir l : List Char) (h : ¬ isDirective l) :
    processLine readF dir l = Option.some l := by
  unfold processLine
  rw [if_neg h]

theorem flattenLines_nondir (readF : List Char → Option (List Char))
    (dir : List Char) (ls : List (List Char)) (h : ∀ l ∈ ls, ¬ isDirective l) :
    flattenLines readF dir ls = Option.some ls := by
  induction ls with
  | nil => rfl
  | cons l rest ih =>
      simp only [flattenLines,
        processLine_nondirective readF dir l (h l (List.mem_cons_self _ _)),
        ih (fun x hx => h x (List.mem_cons_of_mem _ hx))]
      rfl

theorem flattenLines_append (readF : List Char → Option (List Char))
    (dir : List Char) (xs ys : List (List Char)) :
    flattenLines readF dir (xs ++ ys) =
      (flattenLines readF dir xs).bind fun a =>
        (flattenLines readF dir ys).map fun b => a ++ b := by
  induction xs with
  | nil => simp [flattenLines]
  | cons x xs ih =>
      simp only [List.cons_append, flattenLines, List.append_eq, ih]
      cases processLine readF dir x with
      | none => rfl
      | some h =>
          cases flattenLines readF dir xs with
          | none => rfl
          | some a =>
              cases flattenLines readF dir ys with
              | none => rfl
              | some b => rfl

theorem flattenLines_mem_none (readF : List Char → Option (List Char))
    (dir : List Char) (ls : List (List Char)) (l : List Char) (hl : l ∈ ls)
    (h : processLine readF dir l = Option.none) :
    flattenLines readF dir ls = Option.none := by
  induction ls with
  | nil => simp at hl
  | cons x rest ih =>
      rcases List.mem_cons.mp hl with rfl | hmem
      · simp only [flattenLines, h]
        rfl
      · simp only [flattenLines, ih hmem]
        cases processLine readF dir x <;> rfl

theorem splitNl_ne_nil (s : List Char) : splitNl s ≠ [] := by
  cases s with
  | nil => simp [splitNl]
  | cons c rest =>
      simp only [splitNl]
      split
      · simp
      · split <;> simp

theorem splitNl_no_newline (l : List Char) (h : '\n' ∉ l) : splitNl l = [l] := by
  induction l with
  | nil => rfl
  | cons c rest ih =>
      have hc : ¬(c = '\n') := fun he => h (by simp [he])
      have hr := ih (fun hm => h (List.mem_cons_of_mem _ hm))
      simp only [splitNl, if_neg hc, hr]

theorem rustLines_single (l : List Char) (h : '\n' ∉ l) (hne : l ≠ []) :
    rustLines l = [l] := by
  simp only [rustLines, splitNl_no_newline l h]
  cases l with
  | nil => exact absurd rfl hne
  | cons c rest => rfl

theorem flattenScript_abort (readF : List Char → Option (List Char))
    (dir c l : List Char) (hl : l ∈ rustLines c)
    (h : processLine readF dir l = Option.none) :
    flattenScript readF dir c = Option.none := by
  unfold flattenScript
  rw [flattenLines_mem_none readF dir _ l hl h]
  rfl

theorem splitNl_cons₂ (a b : Char) (t : List Char) (ha : ¬(a = '\n'))
    (hb : ¬(b = '\n')) :
    ∃ p ps, splitNl (a :: b :: t) = (a :: b :: p) :: ps := by
  obtain ⟨q, qs, hq⟩ : ∃ q qs, splitNl t = q :: qs := by
    cases hsp : splitNl t with
    | nil => exact absurd hsp (splitNl_ne_nil t)
    | cons q qs => exact ⟨q, qs, rfl⟩
  refine ⟨q, qs, ?_⟩
  simp only [splitNl, if_neg ha, if_neg hb, hq]

theorem stripCr_take_two (a b : Char) (t : List Char) (hb : ¬(b = '\r')) :
    (stripCr (a :: b :: t)).take 2 = [a, b] := by
  unfold stripCr
  split
  next hlast =>
    cases t with
    | nil => simp_all
    | cons x xs =>
        rw [List.dropLast_cons₂, List.dropLast_cons₂]
        rfl
  next => rfl

theorem rustLines_shebang (t : List Char) :
    ∃ l0 ls, rustLines ('#' :: '!' :: t) = l0 :: ls ∧ l0.take 2 = "#!".toList := by
  obtain ⟨p, ps, hsp⟩ := splitNl_cons₂ '#' '!' t (by decide) (by decide)
  cases ps with
  | nil =>
      refine ⟨'#' :: '!' :: p, [], ?_, rfl⟩
      simp only [rustLines, hsp]
      rfl
  | cons x xs =>
      simp only [rustLines, hsp, List.dropLast_cons₂, List.map_cons, List.cons_append]
      exact ⟨_, _, rfl, stripCr_take_two '#' '!' p (by decide)⟩

theorem take_two_of_append (l x : List Char) (a b : Char) (h : l.take 2 = [a, b]) :
    (l ++ x).take 2 = [a, b] := by
  have hlen : 2 ≤ l.length := by
    have hl := congrArg List.length h
    simp only [List.length_take] at hl
    simp at hl
    omega
  rw [List.take_append_eq_append_take, h, Nat.sub_eq_zero_of_le hlen, List.take_zero,
    List.append_nil]

theorem not_directive_of_shebang (l : List Char) (h : l.take 2 = "#!".toList) :
    ¬ isDirective l := by
  intro hd
  cases hd with
  | inl h2 =>
      rw [h] at h2
      exact absurd h2 (by decide)
  | inr h7 =>
      have ht : (l.take 7).take 2 = l.take 2 := by
        rw [List.take_take]
        norm_num
      rw [h7, h] at ht
      exact absurd ht (by decide)

theorem flattenScript_shebang (readF : List Char → Option (List Char))
    (dir c out : List Char) (hc : c.take 2 = "#!".toList)
    (hf : flattenScript readF dir c = Option.some out) :
    out.take 2 = "#!".toList := by
  obtain ⟨t, rfl⟩ : ∃ t, c = '#' :: '!' :: t := by
    cases c with
    | nil => simp at hc
    | cons a c' =>
        cases c' with
        | nil => simp at hc
        | cons b t =>
            obtain ⟨ha, hb⟩ : a = '#' ∧ b = '!' := by
              simpa using hc
            exact ⟨t, by rw [ha, hb]⟩
  obtain ⟨l0, ls, hr, hl0⟩ := rustLines_shebang t
  unfold flattenScript at hf
  rw [hr] at hf
  simp only [flattenLines,
    processLine_nondirective readF dir l0 (not_directive_of_shebang l0 hl0),
    Option.some_bind] at hf
  cases hls : flattenLines readF dir ls with
  | none =>
      rw [hls] at hf
      simp at hf
  | some ls' =>
      rw [hls] at hf
      simp only [Option.map_some'] at hf
      obtain rfl := Option.some.inj hf
      cases ls' with
      | nil => exact hl0
      | cons y ys =>
          simp only [joinNl]
          exact take_two_of_append l0 _ '#' '!' hl0

theorem collectEntries_unreadable :
    ∀ es : List FsEntry, hasUnreadableDir es = true → collectEntries es = Option.none
  | [], h => by simp [hasUnreadableDir] at h
  | .file f :: rest, h => by
      have ih := collectEntries_unreadable rest (by simpa [hasUnreadableDir] using h)
      simp [collectEntries, ih]
  | .dir rd sub :: rest, h => by
      unfold collectEntries
      by_cases hrd : rd = true
      · rw [if_pos hrd]
        simp only [hasUnreadableDir, hrd, Bool.not_true, Bool.false_or,
          Bool.or_eq_true] at h
        rcases h with h | h
        · rw [collectEntries_unreadable sub h]
          rfl
        · rw [collectEntries_unreadable rest h]
          cases collectEntries sub <;> rfl
      · rw [if_neg hrd]

theorem collectEntries_mem :
    ∀ (es : List FsEntry) (l : List SrcFile), collectEntries es = Option.some l →
      ∀ f : SrcFile, f ∈ l ↔ f ∈ filesOf es ∧ isScript f = true
  | [], l, h, f => by
      simp only [collectEntries] at h
      obtain rfl := Option.some.inj h
      simp [filesOf]
  | .file g :: rest, l, h, f => by
      simp only [collectEntries] at h
      cases hr : collectEntries rest with
      | none =>
          rw [hr] at h
          simp at h
      | some r =>
          rw [hr] at h
          simp only [Option.map_some'] at h
          obtain rfl := Option.some.inj h
          have ih := collectEntries_mem rest r hr f
          constructor
          · intro hf
            rcases List.mem_append.mp hf with hf | hf
            · by_cases hg : isScript g = true
              · rw [if_pos hg] at hf
                simp only [List.mem_singleton] at hf
                subst hf
                exact ⟨by simp [filesOf], hg⟩
              · rw [if_neg hg] at hf
                simp at hf
            · have hh := ih.mp hf
              exact ⟨by simp [filesOf, hh.1], hh.2⟩
          · rintro ⟨hmem, hs⟩
            simp only [filesOf, List.mem_cons] at hmem
            rcases hmem with rfl | hmem
            · refine List.mem_append.mpr (Or.inl ?_)
              rw [if_pos hs]
              simp
            · exact List.mem_append.mpr (Or.inr (ih.mpr ⟨hmem, hs⟩))
  | .dir rd sub :: rest, l, h, f => by
      simp only [collectEntries] at h
      by_cases hrd : rd = true
      case neg =>
        rw [if_neg hrd] at h
        simp at h
      case pos =>
        rw [if_pos hrd] at h
        cases hs : collectEntries sub with
        | none =>
            rw [hs] at h
            simp at h
        | some s =>
            rw [hs] at h
            cases hr : collectEntries rest with
            | none =>
                rw [hr] at h
                simp at h
            | some r =>
                rw [hr] at h
                simp only [Option.some_bind, Option.map_some'] at h
                obtain rfl := Option.some.inj h
                have ihs := collectEntries_mem sub s hs f
                have ihr := collectEntries_mem rest r hr f
                simp only [filesOf, List.mem_append]
                constructor
                · intro hf
                  rcases hf with hf | hf
                  · have hh := ihs.mp hf
                    exact ⟨Or.inl hh.1, hh.2⟩
                  · have hh := ihr.mp hf
                    exact ⟨Or.inr hh.1, hh.2⟩
                · rintro ⟨hmem | hmem, hsF⟩
                  · exact Or.inl (ihs.mpr ⟨hmem, hsF⟩)
                  · exact Or.inr (ihr.mpr ⟨hmem, hsF⟩)

theorem buildOutputs_mem (readInc : List Char → Option (List Char))
    (fs : List SrcFile) :
    ∀ (outs : List (List Char × List Char)),
      buildOutputs readInc fs = Option.some outs →
      ∀ o ∈ outs, ∃ f, f ∈ fs ∧ ∃ c, f.content = Option.some c ∧
        flattenScript readInc (parentDir f.path) c = Option.some o.2 ∧
        o.1 = f.path := by
  induction fs with
  | nil =>
      intro outs h o ho
      simp only [buildOutputs] at h
      obtain rfl := Option.some.inj h
      simp at ho
  | cons f rest ih =>
      intro outs h o ho
      simp only [buildOutputs] at h
      cases hc : f.content with
      | none =>
          rw [hc] at h
          simp at h
      | some c =>
          rw [hc] at h
          simp only [Option.some_bind] at h
          cases hfl : flattenScript readInc (parentDir f.path) c with
          | none =>
              rw [hfl] at h
              simp at h
          | some flat =>
              rw [hfl] at h
              cases hbo : buildOutputs readInc rest with
              | none =>
                  rw [hbo] at h
                  simp at h
              | some r =>
                  rw [hbo] at h
                  simp only [Option.some_bind, Option.map_some'] at h
                  obtain rfl := Option.some.inj h
                  rcases List.mem_cons.mp ho with rfl | hmem
                  · exact ⟨f, List.mem_cons_self _ _, c, hc, hfl, rfl⟩
                  · obtain ⟨g, hg, c', hc', hfl', hp'⟩ := ih r hbo o hmem
                    exact ⟨g, List.mem_cons_of_mem _ hg, c', hc', hfl', hp'⟩

/-! ## Claims -/

/-- **C1, counterexample.**  The claim includes `N = 0`, asserting the
offset stays within `[0, N-1]` and that `scroll_down` at the bottom is
a no-op.  But for the empty prompt `names.len() - 1` underflows (usize
wrap in release builds; panic in debug builds), so one `scroll_down`
moves the offset from `0` to `1`: not a no-op, and outside `[0, N-1]`. -/
theorem c1_counterexample :
    ((ConfirmPrompt.new []).scroll_down).scroll = 1 ∧
    (ConfirmPrompt.new []).scroll_down ≠ ConfirmPrompt.new [] := by
  constructor
  · decide
  · decide

/-- **C1 (amended).**  For every `ConfirmPrompt` built from a nonempty
list of length `N` (with `N` a valid usize), the scroll offset stays
within `[0, N-1]` under arbitrary sequences of `scroll_up` and
`scroll_down`, `scroll_down` at offset `N-1` is a no-op, and
`scroll_up` at offset `0` is a no-op.  For `N = 0` the bound fails
(see the counterexample). -/
theorem c1_scroll_bounded_amended (names : List String) (ops : List ScrollOp)
    (hne : names ≠ []) (hU : names.length < USIZE) :
    (runScroll (ConfirmPrompt.new names) ops).scroll < names.length ∧
    (∀ p : ConfirmPrompt, p.names.length = names.length →
      p.scroll = names.length - 1 → p.scroll_down = p) ∧
    (∀ p : ConfirmPrompt, p.scroll = 0 → p.scroll_up = p) := by
  refine ⟨?_, ?_, ?_⟩
  · have hlen : (ConfirmPrompt.new names).names.length = names.length :=
      numberFrom_length 1 names
    have hpos : 0 < names.length := List.length_pos.mpr hne
    have h0 : (ConfirmPrompt.new names).scroll < (ConfirmPrompt.new names).names.length := by
      rw [hlen]
      exact hpos
    have := runScroll_inv ops (ConfirmPrompt.new names) (by rw [hlen]; exact hU) h0
    rw [hlen] at this
    exact this.2
  · intro p hplen hps
    unfold ConfirmPrompt.scroll_down
    rw [hplen, hps, usize_pred_eq _ (List.length_pos.mpr hne) hU, if_neg (lt_irrefl _)]
  · intro p hps
    unfold ConfirmPrompt.scroll_up
    rw [hps, if_neg (lt_irrefl _)]

/-- Witness for C1 (amended) at a concrete prompt and input sequence. -/
theorem c1_scroll_bounded_witness :
    (runScroll (ConfirmPrompt.new ["a", "b"])
      [ScrollOp.down, ScrollOp.down, ScrollOp.up, ScrollOp.down]).scroll < 2 :=
  (c1_scroll_bounded_amended ["a", "b"]
    [ScrollOp.down, ScrollOp.down, ScrollOp.up, ScrollOp.down]
    (by decide) (by norm_num [USIZE])).1

/-- **C2, counterexample.**  The claim says at most one layer of
surrounding double quotes is stripped, so a value whose content itself
begins and ends with a double quote keeps those inner quotes.  The
code uses `trim_matches('"')`, which removes *all* leading and
trailing quote characters: on `PRETTY_NAME=""Ubuntu""` the parsed
value is `Ubuntu`, while one-layer stripping would keep `"Ubuntu"`. -/
theorem c2_counterexample :
    osReleaseParseLine ("PRETTY_NAME=\"\"Ubuntu\"\"".toList) =
      Option.some ("pretty_name".toList, "Ubuntu".toList) ∧
    stripOneQuoteLayer ("\"\"Ubuntu\"\"".toList) = "\"Ubuntu\"".toList ∧
    "Ubuntu".toList ≠ "\"Ubuntu\"".toList := by
  refine ⟨by decide, by decide, by decide⟩

/-- **C2 (amended).**  For every line containing at least one `=`, the
probe splits on the first `=` only and lower-cases the key; the value
has *every* leading and every trailing double-quote character removed
(all layers, not at most one): the parsed value never starts or ends
with a double quote. -/
theorem c2_parse_line_amended (k v : List Char) (hk : '=' ∉ k) :
    osReleaseParseLine (k ++ '=' :: v) =
      Option.some (k.map Char.toLower, trimMatches '"' v) ∧
    (trimMatches '"' v).head? ≠ Option.some '"' ∧
    (trimMatches '"' v).getLast? ≠ Option.some '"' := by
  refine ⟨?_, trimMatches_head?_ne _ _, trimMatches_getLast?_ne _ _⟩
  unfold osReleaseParseLine
  rw [splitOnce_append _ _ _ hk]
  rfl

/-- Witness for C2 (amended) at the spec's example line
`PRETTY_NAME="Ubuntu 22.04"`. -/
theorem c2_parse_line_witness :
    osReleaseParseLine ("PRETTY_NAME".toList ++ '=' :: "\"Ubuntu 22.04\"".toList) =
      Option.some ("pretty_name".toList, "Ubuntu 22.04".toList) :=
  ((c2_parse_line_amended ("PRETTY_NAME".toList) ("\"Ubuntu 22.04\"".toList)
    (by decide)).1).trans (by decide)

/-- **C3.**  For a candidate script one of whose lines is exactly
`source lib/common.sh`, where the referenced file (resolved against
the including file's directory) reads `X=1` and no other line is an
include directive, the flattened output is the input's line list with
exactly that line replaced by `X=1`, rejoined with a single newline
separator between lines. -/
theorem c3_source_inline (readF : List Char → Option (List Char))
    (dir contents : List Char) (pre post : List (List Char))
    (hread : readF (pathJoin dir ("lib/common.sh".toList)) =
      Option.some ("X=1".toList))
    (hlines : rustLines contents = pre ++ ("source lib/common.sh".toList) :: post)
    (hpre : ∀ l ∈ pre, ¬ isDirective l) (hpost : ∀ l ∈ post, ¬ isDirective l) :
    flattenScript readF dir contents =
      Option.some (joinNl (pre ++ ("X=1".toList) :: post)) := by
  unfold flattenScript
  rw [hlines, flattenLines_append, flattenLines_nondir _ _ _ hpre]
  simp only [flattenLines]
  have hd : processLine readF dir ("source lib/common.sh".toList) =
      Option.some ("X=1".toList) := by
    unfold processLine
    rw [if_pos (by decide)]
    rw [show splitOnce ' ' ("source lib/common.sh".toList) =
      Option.some ("source".toList, "lib/common.sh".toList) by decide]
    exact hread
  rw [hd, flattenLines_nondir _ _ _ hpost]
  rfl

/-- Witness for C3 at a concrete filesystem and script. -/
theorem c3_source_inline_witness :
    flattenScript
      (fun p => if p = "d/lib/common.sh".toList then Option.some ("X=1".toList)
        else Option.none)
      ("d".toList) ("#!/bin/sh\nsource lib/common.sh\necho hi".toList) =
      Option.some ("#!/bin/sh\nX=1\necho hi".toList) :=
  (c3_source_inline
    (fun p => if p = "d/lib/common.sh".toList then Option.some ("X=1".toList)
      else Option.none)
    ("d".toList) ("#!/bin/sh\nsource lib/common.sh\necho hi".toList)
    ["#!/bin/sh".toList] ["echo hi".toList]
    (by decide) (by decide) (by decide) (by decide)).trans (by decide)

/-- **C4.**  Transclusion is exactly one level deep: a directive line
(one starting with `". "` or `"source "`) is replaced by the raw
contents `readF` returns for the target path resolved relative to the
including file's directory, with no processing of those contents —
in particular, flattening a script whose single line sources a file
yields that file's contents verbatim, even when those contents are
themselves an include directive (they are not re-scanned). -/
theorem c4_one_level_transclusion :
    (∀ (readF : List Char → Option (List Char)) (dir l w v : List Char),
      isDirective l →
      splitOnce ' ' l = Option.some (w, v) →
      processLine readF dir l = readF (pathJoin dir v)) ∧
    (∀ (readF : List Char → Option (List Char)) (dir p : List Char), '\n' ∉ p →
      flattenScript readF dir ("source ".toList ++ p) = readF (pathJoin dir p)) ∧
    (∀ (readF : List Char → Option (List Char)) (dir p : List Char), '\n' ∉ p →
      flattenScript readF dir ('.' :: ' ' :: p) = readF (pathJoin dir p)) ∧
    (∀ (readF : List Char → Option (List Char)) (dir p q : List Char), '\n' ∉ p →
      readF (pathJoin dir p) = Option.some ("source ".toList ++ q) →
      flattenScript readF dir ("source ".toList ++ p) =
        Option.some ("source ".toList ++ q)) := by
  have part1 : ∀ (readF : List Char → Option (List Char)) (dir l w v : List Char),
      isDirective l →
      splitOnce ' ' l = Option.some (w, v) →
      processLine readF dir l = readF (pathJoin dir v) := by
    intro readF dir l w v hdir hsplit
    unfold processLine
    rw [if_pos hdir, hsplit]
  have part2 : ∀ (readF : List Char → Option (List Char)) (dir p : List Char),
      '\n' ∉ p →
      flattenScript readF dir ("source ".toList ++ p) = readF (pathJoin dir p) := by
    intro readF dir p hp
    have hnl : '\n' ∉ ("source ".toList ++ p) := by
      intro hm
      rcases List.mem_append.mp hm with hmm | hmm
      · exact absurd hmm (by decide)
      · exact hp hmm
    have hne : ("source ".toList ++ p) ≠ [] := by simp
    have hdir : isDirective ("source ".toList ++ p) :=
      Or.inr (List.take_left' (by decide))
    have hsplit : splitOnce ' ' ("source ".toList ++ p) =
        Option.some ("source".toList, p) :=
      splitOnce_append ' ' ("source".toList) p (by decide)
    unfold flattenScript
    rw [rustLines_single _ hnl hne]
    simp only [flattenLines]
    rw [part1 readF dir _ ("source".toList) p hdir hsplit]
    cases readF (pathJoin dir p) <;> rfl
  have part3 : ∀ (readF : List Char → Option (List Char)) (dir p : List Char),
      '\n' ∉ p →
      flattenScript readF dir ('.' :: ' ' :: p) = readF (pathJoin dir p) := by
    intro readF dir p hp
    have hnl : '\n' ∉ ('.' :: ' ' :: p) := by
      intro hm
      rcases List.mem_cons.mp hm with hmm | hmm
      · exact absurd hmm (by decide)
      · rcases List.mem_cons.mp hmm with hmm2 | hmm2
        · exact absurd hmm2 (by decide)
        · exact hp hmm2
    have hne : ('.' :: ' ' :: p) ≠ [] := by simp
    have hdir : isDirective ('.' :: ' ' :: p) := Or.inl rfl
    have hsplit : splitOnce ' ' ('.' :: ' ' :: p) =
        Option.some (".".toList, p) := rfl
    unfold flattenScript
    rw [rustLines_single _ hnl hne]
    simp only [flattenLines]
    rw [part1 readF dir _ (".".toList) p hdir hsplit]
    cases readF (pathJoin dir p) <;> rfl
  exact ⟨part1, part2, part3,
    fun readF dir p q hp hq => (part2 readF dir p hp).trans hq⟩

/-- Witness for C4: the included file is itself a directive
(`source inner.sh`, and `inner.sh` exists with different contents
`Y=2`); the output keeps the directive text, proving it was not
re-expanded. -/
theorem c4_one_level_witness :
    flattenScript
      (fun f => if f = "d/outer.sh".toList then
          Option.some ("source ".toList ++ "inner.sh".toList)
        else if f = "d/inner.sh".toList then Option.some ("Y=2".toList)
        else Option.none)
      ("d".toList) ("source ".toList ++ "outer.sh".toList) =
      Option.some ("source ".toList ++ "inner.sh".toList) :=
  c4_one_level_transclusion.2.2.2
    (fun f => if f = "d/outer.sh".toList then
        Option.some ("source ".toList ++ "inner.sh".toList)
      else if f = "d/inner.sh".toList then Option.some ("Y=2".toList)
      else Option.none)
    ("d".toList) ("outer.sh".toList) ("inner.sh".toList)
    (by decide) (by decide)

/-- **C5, counterexample.**  A candidate-extension file that cannot be
opened is *not* fatal: `starts_with_shebang` maps the open failure to
`false`, so the file silently fails the candidate test and the build
succeeds with an empty catalog, contradicting the claim that an
unreadable candidate file aborts the build and is never silently
excluded. -/
theorem c5_counterexample :
    buildPipeline (fun _ => Option.none)
      [FsEntry.file ⟨"a.sh".toList, Option.some ("sh".toList), Option.none⟩] =
      Option.some [] := by
  simp only [buildPipeline, collectEntries]
  decide

/-- **C5 (amended).**  An unreadable source directory anywhere in the
tree aborts the collection, and an unreadable include target of a
processed candidate aborts the build; but a file that cannot be read
at discovery time is silently excluded (the pipeline behaves as if
the file were absent), not fatal. -/
theorem c5_failure_semantics_amended :
    (∀ es : List FsEntry, hasUnreadableDir es = true →
      collectEntries es = Option.none) ∧
    (∀ (readInc : List Char → Option (List Char)) (dir c p : List Char),
      ("source ".toList ++ p) ∈ rustLines c →
      readInc (pathJoin dir p) = Option.none →
      flattenScript readInc dir c = Option.none) ∧
    (∀ (readInc : List Char → Option (List Char)) (f : SrcFile)
      (es : List FsEntry), f.content = Option.none →
      buildPipeline readInc (FsEntry.file f :: es) = buildPipeline readInc es) := by
  refine ⟨collectEntries_unreadable, ?_, ?_⟩
  · intro readInc dir c p hmem hread
    apply flattenScript_abort readInc dir c _ hmem
    have hdir : isDirective ("source ".toList ++ p) :=
      Or.inr (List.take_left' (by decide))
    have hsplit : splitOnce ' ' ("source ".toList ++ p) =
        Option.some ("source".toList, p) :=
      splitOnce_append ' ' ("source".toList) p (by decide)
    unfold processLine
    rw [if_pos hdir, hsplit]
    exact hread
  · intro readInc f es hf
    unfold buildPipeline
    have hsc : isScript f = false := by
      simp [isScript, starts_with_shebang, hf]
    simp only [collectEntries, hsc, Bool.false_eq_true, if_false, List.nil_append]
    cases collectEntries es <;> rfl

/-- Witness for C5 (amended) at concrete trees: an unreadable
directory aborts; an unreadable include target aborts; an unreadable
file is skipped with the pipeline otherwise unchanged. -/
theorem c5_failure_semantics_witness :
    collectEntries [FsEntry.dir false []] = Option.none ∧
    flattenScript (fun _ => Option.none) ("d".toList)
      ("source ".toList ++ "x.sh".toList) = Option.none ∧
    buildPipeline (fun _ => Option.none)
      [FsEntry.file ⟨"a.sh".toList, Option.some ("sh".toList), Option.none⟩,
       FsEntry.file ⟨"b".toList, Option.none, Option.some ("#!x".toList)⟩] =
      buildPipeline (fun _ => Option.none)
      [FsEntry.file ⟨"b".toList, Option.none, Option.some ("#!x".toList)⟩] :=
  ⟨c5_failure_semantics_amended.1 [FsEntry.dir false []]
     (by simp [hasUnreadableDir]),
   c5_failure_semantics_amended.2.1 (fun _ => Option.none) ("d".toList)
     ("source ".toList ++ "x.sh".toList) ("x.sh".toList) (by decide) (by decide),
   c5_failure_semantics_amended.2.2 (fun _ => Option.none)
     ⟨"a.sh".toList, Option.some ("sh".toList), Option.none⟩
     [FsEntry.file ⟨"b".toList, Option.none, Option.some ("#!x".toList)⟩]
     (by decide)⟩

/-- **C6.**  Every file the pipeline emits starts with the two shebang
bytes `#!`: candidates are exactly the files whose contents start with
`#!`, the first line therefore never matches an include directive, and
flattening keeps it at the front of the output. -/
theorem c6_output_shebang (readInc : List Char → Option (List Char))
    (tree : List FsEntry) (outs : List (List Char × List Char))
    (h : buildPipeline readInc tree = Option.some outs) :
    ∀ o ∈ outs, o.2.take 2 = "#!".toList := by
  intro o ho
  unfold buildPipeline at h
  cases hc : collectEntries tree with
  | none =>
      rw [hc] at h
      simp at h
  | some l =>
      rw [hc] at h
      simp only [Option.some_bind] at h
      obtain ⟨f, hf, c, hcont, hflat, _⟩ := buildOutputs_mem readInc l outs h o ho
      have hs : isScript f = true := ((collectEntries_mem tree l hc f).mp hf).2
      have hsheb : starts_with_shebang f = true := by
        have hs' : has_shell_ext f = true ∧ starts_with_shebang f = true := by
          simpa [isScript, Bool.and_eq_true_iff] using hs
        exact hs'.2
      have hct : c.take 2 = "#!".toList := by
        simp only [starts_with_shebang, hcont, decide_eq_true_eq] at hsheb
        exact hsheb
      exact flattenScript_shebang readInc (parentDir f.path) c o.2 hct hflat

/-- Witness for C6 at a concrete one-file tree. -/
theorem c6_output_shebang_witness :
    (("a.sh".toList, "#!/bin/sh\necho hi".toList) :
      List Char × List Char).2.take 2 = "#!".toList :=
  c6_output_shebang (fun _ => Option.none)
    [FsEntry.file
      ⟨"a.sh".toList, Option.some ("sh".toList),
        Option.some ("#!/bin/sh\necho hi".toList)⟩]
    [("a.sh".toList, "#!/bin/sh\necho hi".toList)]
    (by simp only [buildPipeline, collectEntries]; decide)
    ("a.sh".toList, "#!/bin/sh\necho hi".toList) (by decide)

/-- **C7.**  A discovered file is collected iff its extension is
absent or exactly `sh` and its first two bytes are `#!`; non-matching
files appear nowhere in the output catalog (the emitted paths are
exactly the collected candidates' paths). -/
theorem c7_candidate_iff :
    (∀ (es : List FsEntry) (l : List SrcFile),
      collectEntries es = Option.some l →
      ∀ f : SrcFile, f ∈ l ↔
        f ∈ filesOf es ∧ has_shell_ext f = true ∧ starts_with_shebang f = true) ∧
    (∀ (readInc : List Char → Option (List Char)) (fs : List SrcFile)
      (outs : List (List Char × List Char)),
      buildOutputs readInc fs = Option.some outs →
      outs.map Prod.fst = fs.map SrcFile.path) := by
  constructor
  · intro es l h f
    rw [collectEntries_mem es l h f]
    simp [isScript, Bool.and_eq_true]
  · intro readInc fs
    induction fs with
    | nil =>
        intro outs h
        simp only [buildOutputs] at h
        obtain rfl := Option.some.inj h
        rfl
    | cons f rest ih =>
        intro outs h
        simp only [buildOutputs] at h
        cases hc : f.content with
        | none =>
            rw [hc] at h
            simp at h
        | some c =>
            rw [hc] at h
            simp only [Option.some_bind] at h
            cases hfl : flattenScript readInc (parentDir f.path) c with
            | none =>
                rw [hfl] at h
                simp at h
            | some flat =>
                rw [hfl] at h
                cases hbo : buildOutputs readInc rest with
                | none =>
                    rw [hbo] at h
                    simp at h
                | some r =>
                    rw [hbo] at h
                    simp only [Option.some_bind, Option.map_some'] at h
                    obtain rfl := Option.some.inj h
                    simp [ih r hbo]

/-- Witness for C7: a `.txt` file with a shebang is not collected and
its path never reaches the catalog; the collected `.sh` file is. -/
theorem c7_candidate_iff_witness :
    ((⟨"c.txt".toList, Option.some ("txt".toList),
        Option.some ("#!c".toList)⟩ : SrcFile) ∈
      [(⟨"a.sh".toList, Option.some ("sh".toList),
        Option.some ("#!a".toList)⟩ : SrcFile)] ↔
      (⟨"c.txt".toList, Option.some ("txt".toList),
        Option.some ("#!c".toList)⟩ : SrcFile) ∈
        filesOf
          [FsEntry.file
            ⟨"a.sh".toList, Option.some ("sh".toList),
              Option.some ("#!a".toList)⟩,
           FsEntry.file
            ⟨"c.txt".toList, Option.some ("txt".toList),
              Option.some ("#!c".toList)⟩] ∧
      has_shell_ext
        ⟨"c.txt".toList, Option.some ("txt".toList),
          Option.some ("#!c".toList)⟩ = true ∧
      starts_with_shebang
        ⟨"c.txt".toList, Option.some ("txt".toList),
          Option.some ("#!c".toList)⟩ = true) ∧
    [(("a.sh".toList, "#!a".toList) : List Char × List Char)].map Prod.fst =
      [(⟨"a.sh".toList, Option.some ("sh".toList),
        Option.some ("#!a".toList)⟩ : SrcFile)].map SrcFile.path :=
  ⟨c7_candidate_iff.1
    [FsEntry.file
      ⟨"a.sh".toList, Option.some ("sh".toList), Option.some ("#!a".toList)⟩,
     FsEntry.file
      ⟨"c.txt".toList, Option.some ("txt".toList), Option.some ("#!c".toList)⟩]
    [⟨"a.sh".toList, Option.some ("sh".toList), Option.some ("#!a".toList)⟩]
    (by simp only [collectEntries]; decide)
    ⟨"c.txt".toList, Option.some ("txt".toList), Option.some ("#!c".toList)⟩,
   c7_candidate_iff.2 (fun _ => Option.none)
    [⟨"a.sh".toList, Option.some ("sh".toList), Option.some ("#!a".toList)⟩]
    [("a.sh".toList, "#!a".toList)] (by decide)⟩

/-- **C8.**  `get_package_manager` returns exactly the table value for
the four known distribution ids and `Option.none` for every other id;
it is a total function (never an error or panic). -/
theorem c8_package_manager_resolver :
    get_package_manager "fedora" = Option.some "dnf" ∧
    get_package_manager "debian" = Option.some "apt-get" ∧
    get_package_manager "arch" = Option.some "pacman" ∧
    get_package_manager "opensuse" = Option.some "zypper" ∧
    ∀ d : String, d ∉ ["fedora", "debian", "arch", "opensuse"] →
      get_package_manager d = Option.none := by
  refine ⟨by decide, by decide, by decide, by decide, ?_⟩
  intro d hd
  simp only [List.mem_cons, List.not_mem_nil, or_false, not_or] at hd
  obtain ⟨h1, h2, h3, h4⟩ := hd
  have g1 : ¬(("fedora" : String) = d) := fun h => h1 h.symm
  have g2 : ¬(("debian" : String) = d) := fun h => h2 h.symm
  have g3 : ¬(("arch" : String) = d) := fun h => h3 h.symm
  have g4 : ¬(("opensuse" : String) = d) := fun h => h4 h.symm
  simp [get_package_manager, package_managers, List.find?, g1, g2, g3, g4]

/-- Witness for C8 at the spec's example id `"unknownos"`. -/
theorem c8_package_manager_witness :
    get_package_manager "unknownos" = Option.none :=
  c8_package_manager_resolver.2.2.2.2 "unknownos" (by decide)

/-- **C9.**  For the prompt built from `["a","b","c"]`: the labels are
`["1. a","2. b","3. c"]` with offset `0`; after one `scroll_down` the
rendered body starts at `"2. b"`; `scroll_up` at offset `0` is a
no-op; `y`/`Y` yield `confirmSelection` and `n`/`N`/escape yield
`abortConfirmation` at every prompt state (hence regardless of the
scroll offset), leaving the state unchanged; a character key bound to
none of the match arms — and any non-character, non-escape key —
changes nothing and yields `FloatEvent.none`. -/
theorem c9_confirm_prompt_behaviour :
    ConfirmPrompt.new ["a", "b", "c"] =
      { names := ["1. a", "2. b", "3. c"], scroll := 0 } ∧
    ((ConfirmPrompt.new ["a", "b", "c"]).scroll_down).drawBody.head? =
      Option.some "2. b" ∧
    (ConfirmPrompt.new ["a", "b", "c"]).scroll_up = ConfirmPrompt.new ["a", "b", "c"] ∧
    (∀ p : ConfirmPrompt,
      p.handle_key_event (KeyCode.char 'y') = (p, FloatEvent.confirmSelection) ∧
      p.handle_key_event (KeyCode.char 'Y') = (p, FloatEvent.confirmSelection) ∧
      p.handle_key_event (KeyCode.char 'n') = (p, FloatEvent.abortConfirmation) ∧
      p.handle_key_event (KeyCode.char 'N') = (p, FloatEvent.abortConfirmation) ∧
      p.handle_key_event KeyCode.esc = (p, FloatEvent.abortConfirmation)) ∧
    (∀ (p : ConfirmPrompt) (c : Char),
      c ≠ 'y' → c ≠ 'Y' → c ≠ 'n' → c ≠ 'N' → c ≠ 'j' → c ≠ 'k' →
      p.handle_key_event (KeyCode.char c) = (p, FloatEvent.none)) ∧
    (∀ p : ConfirmPrompt, p.handle_key_event KeyCode.other = (p, FloatEvent.none)) := by
  refine ⟨by decide, by decide, by decide, fun p => ⟨rfl, rfl, rfl, rfl, rfl⟩, ?_,
    fun p => rfl⟩
  intro p c h1 h2 h3 h4 h5 h6
  simp only [ConfirmPrompt.handle_key_event]
  rw [if_neg (not_or.mpr ⟨h1, h2⟩), if_neg (not_or.mpr ⟨h3, h4⟩), if_neg h5, if_neg h6]

/-- Witness for C9 at a concrete prompt and the unbound key `'x'`. -/
theorem c9_confirm_prompt_witness :
    (ConfirmPrompt.new ["a", "b", "c"]).handle_key_event (KeyCode.char 'x') =
      (ConfirmPrompt.new ["a", "b", "c"], FloatEvent.none) :=
  c9_confirm_prompt_behaviour.2.2.2.2.1 (ConfirmPrompt.new ["a", "b", "c"]) 'x'
    (by decide) (by decide) (by decide) (by decide) (by decide) (by decide)

/-- **C10.**  The static help overlay pairs "Scroll up" with key `j`
and "Scroll down" with key `k`, while `handle_key_event` maps `j` to
`scroll_down` and `k` to `scroll_up` — the inverse pairing. -/
theorem c10_shortcut_list_inverted :
    ∀ p : ConfirmPrompt,
      ("Scroll up", ["j"]) ∈ (p.get_shortcut_list).2 ∧
      ("Scroll down", ["k"]) ∈ (p.get_shortcut_list).2 ∧
      p.handle_key_event (KeyCode.char 'j') = (p.scroll_down, FloatEvent.none) ∧
      p.handle_key_event (KeyCode.char 'k') = (p.scroll_up, FloatEvent.none) := by
  intro p
  refine ⟨?_, ?_, rfl, rfl⟩ <;> simp [ConfirmPrompt.get_shortcut_list]

end Linutil
